import Mathlib

/-!
Shallow embedding of the `mac-report` system reporter.

The repository ships two near-duplicate editions of the same program:
`src/machine_report.cpp` (the decorated, themed edition) and the plain
edition in `src/unnamed/part_000`.  Definitions below are translated
from those sources.  Naming convention: definitions from the themed
edition live in namespace `Themed`, those from the plain edition in
namespace `Plain`; logic that is byte-identical in both editions lives
at the top of namespace `MachineReport`.

Modelling conventions:
- C++ `std::string` values are `List Char` (or `List Nat` of byte
  values where the code inspects raw bytes, as in `getDisplayWidth`).
- `uint64_t`/32-bit arithmetic carries explicit `% 2^w` where the
  source stores into a fixed-width integer.
- IEEE `double` values are modelled as exact rationals; a division
  whose divisor is zero (which yields the non-finite `inf`/`NaN` in
  the C++ program) is modelled by `Option.none` via `divD`.
- The `while` loop of `getDisplayWidth` can fail to advance, so it is
  embedded with explicit fuel (`gdwAux`); every productive iteration
  consumes at least one input byte, hence fuel `length + 1` decides
  termination of the source loop.
-/

namespace MachineReport

/-- `MIN_DATA_LEN` from the source. -/
def MIN_DATA_LEN : Nat := 20

/-- `MAX_DATA_LEN` from the source. -/
def MAX_DATA_LEN : Nat := 32

/-- 2^32, the modulus of 32-bit unsigned arithmetic. -/
def U32 : Nat := 4294967296

/-- 2^64, the modulus of 64-bit unsigned arithmetic. -/
def U64 : Nat := 18446744073709551616

/-- 64-bit unsigned subtraction `a - b` for operands already reduced
mod 2^64, with wraparound, as C computes it on `uint64_t`. -/
def u64sub (a b : Nat) : Nat := (a + U64 - b) % U64

/-- IEEE double division as the C++ sources use it: an exact rational
quotient when the divisor is nonzero, and `none` standing for the
non-finite `inf`/`NaN` results the hardware produces when the divisor
is `0.0`. -/
def divD (a b : ℚ) : Option ℚ := if b = 0 then none else some (a / b)

/-- Result of `statfs("/", ...)` when it succeeds: the four fields the
program reads.  On macOS `f_bsize` is 32-bit and the block counts are
64-bit; all are nonnegative. -/
structure StatFS where
  f_bsize : Nat
  f_blocks : Nat
  f_bfree : Nat
  f_bavail : Nat

/-- Disk snapshot, common field layout of both editions. -/
structure DiskInfo where
  total : Nat
  used : Nat
  percent : Option ℚ

/-- Memory snapshot, common field layout of both editions. -/
structure MemInfo where
  total : Nat
  used : Nat
  percent : Option ℚ

namespace Themed

/-- `getDiskInfo` from `machine_report.cpp` (lines 462-479).  The
input is `some fs` when `statfs("/", &fs)` returned 0, else `none`.
`total_bytes = fs.f_blocks * fs.f_bsize`,
`free_bytes = fs.f_bavail * fs.f_bsize` (note: `f_bavail`),
`used_bytes = total_bytes - free_bytes`, and
`percent = used/total*100` computed unconditionally in `double`. -/
def getDiskInfo (q : Option StatFS) : DiskInfo :=
  match q with
  | none => { total := 0, used := 0, percent := some 0 }
  | some fs =>
    let total_bytes := fs.f_blocks * fs.f_bsize % U64
    let free_bytes := fs.f_bavail * fs.f_bsize % U64
    let used_bytes := u64sub total_bytes free_bytes
    { total := total_bytes
      used := used_bytes
      percent := (divD (used_bytes : ℚ) (total_bytes : ℚ)).map (· * 100) }

/-- `getMemInfo` from `machine_report.cpp` (lines 437-460).  `vmStat`
is `some (active_count, wire_count)` when `host_statistics64`
returned `KERN_SUCCESS`, else `none`; `page_size` and `total_mem` are
the values of the respective system queries.  The sum
`active_count + wire_count` is computed on 32-bit `natural_t` before
the 64-bit multiply; `percent = used/total*100` is computed
unconditionally in `double` on the success path. -/
def getMemInfo (vmStat : Option (Nat × Nat)) (page_size : Nat) (total_mem : Nat) : MemInfo :=
  match vmStat with
  | none => { total := 0, used := 0, percent := some 0 }
  | some (active_count, wire_count) =>
    let used_mem := (active_count + wire_count) % U32 * page_size % U64
    { total := total_mem
      used := used_mem
      percent := (divD (used_mem : ℚ) (total_mem : ℚ)).map (· * 100) }

end Themed

namespace Plain

/-- `getDiskInfo` from `src/unnamed/part_000` (lines 420-432).  Uses
`stats.f_bfree` (note: not `f_bavail`) for the free byte count, and
guards the percent computation with `info.total > 0`; `DiskInfo info{}`
zero-initialises every field. -/
def getDiskInfo (q : Option StatFS) : DiskInfo :=
  match q with
  | none => { total := 0, used := 0, percent := some 0 }
  | some fs =>
    let total := fs.f_blocks * fs.f_bsize % U64
    let free := fs.f_bfree * fs.f_bsize % U64
    let used := u64sub total free
    { total := total
      used := used
      percent := if 0 < total then some ((used : ℚ) / (total : ℚ) * 100) else some 0 }

/-- `getMemInfo` from `src/unnamed/part_000` (lines 382-412).
`totalQ` is `some v` when the `hw.memsize` sysctl succeeded (the
cached total stays 0 otherwise); `vmStat` is
`some (active_count, wire_count)` when `host_statistics` succeeded
(`info.used` stays 0 otherwise).  Each count is widened to `int64_t`
before multiplying by the page size, and the percent computation is
guarded by `info.total > 0`. -/
def getMemInfo (vmStat : Option (Nat × Nat)) (page_size : Nat) (totalQ : Option Nat) : MemInfo :=
  let total := totalQ.getD 0
  let used :=
    match vmStat with
    | none => 0
    | some (active_count, wire_count) =>
      (active_count * page_size + wire_count * page_size) % U64
  { total := total
    used := used
    percent := if 0 < total then some ((used : ℚ) / (total : ℚ) * 100) else some 0 }

end Plain

/-- C truncation-toward-zero of a `double` value to `int`, as
`static_cast<int>` performs it, modelled on exact rationals. -/
def truncD (q : ℚ) : ℤ := if q < 0 then -(⌊-q⌋) else ⌊q⌋

/-- `num_blocks` of `drawBarGraph` (identical in both editions):
`static_cast<int>((percent / 100.0) * width)`. -/
def numBlocks (percent : ℚ) (width : ℤ) : ℤ := truncD (percent / 100 * width)

/-- Number of filled glyphs `drawBarGraph` emits: the first loop runs
`for (int i = 0; i < num_blocks; ++i)`. -/
def barFilledCount (percent : ℚ) (width : ℤ) : ℕ := (numBlocks percent width).toNat

/-- Number of empty glyphs `drawBarGraph` emits: the second loop runs
`for (int i = num_blocks; i < width; ++i)`. -/
def barEmptyCount (percent : ℚ) (width : ℤ) : ℕ :=
  (width - numBlocks percent width).toNat

/-- The glyph sequence of `drawBarGraph` (identical block structure in
both editions; the themed edition merely interleaves zero-width colour
codes): `true` marks a filled glyph, `false` an empty one. -/
def drawBarGraph (percent : ℚ) (width : ℤ) : List Bool :=
  List.replicate (barFilledCount percent width) true ++
    List.replicate (barEmptyCount percent width) false

/-- One step of the scanning loop inside `getDisplayWidth` that runs
after `ESC [` has been seen (`machine_report.cpp` lines 104-115):
scan parameter/intermediate bytes `0x20..0x3F`; a byte in
`0x40..0x7E` terminates the sequence (`i = j + 1`); any other byte
makes the loop `break` with `i` untouched (malformed); running out of
input sets `i = str.length()`. -/
inductive CSIScan where
  | term (rest : List Nat)
  | malformed
  | eof

/-- The `while (j < str.length())` scan of `getDisplayWidth`. -/
def scanCSI : List Nat → CSIScan
  | [] => .eof
  | ch :: rest =>
    if 0x40 ≤ ch ∧ ch ≤ 0x7E then .term rest
    else if ch < 0x20 ∨ 0x3F < ch then .malformed
    else scanCSI rest

/-- One iteration of the outer `for` loop of `getDisplayWidth`
(`machine_report.cpp` lines 99-148) on the remaining byte suffix:
returns the width contribution and the new suffix.  Byte-mask tests
are translated for byte values `< 256`:
`(c & 0x80) == 0` is `c < 0x80`, `(c & 0xE0) == 0xC0` is
`0xC0 ≤ c ≤ 0xDF`, `(c & 0xF0) == 0xE0` is `0xE0 ≤ c ≤ 0xEF`,
`(c & 0xF8) == 0xF0` is `0xF0 ≤ c ≤ 0xF7`.  In the malformed-CSI case
the source leaves `i` unchanged, so the suffix is returned as is. -/
def gdwStep : List Nat → Nat × List Nat
  | [] => (0, [])
  | c :: rest =>
    if c = 0x1B then
      match rest with
      | 0x5B :: rest2 =>
        match scanCSI rest2 with
        | .term r => (0, r)
        | .eof => (0, [])
        | .malformed => (0, c :: rest)
      | _ => (1, rest)
    else if c < 0x80 then (1, rest)
    else if 0xC0 ≤ c ∧ c ≤ 0xDF then
      match rest with
      | c1 :: rest2 =>
        if (c = 0xC2 ∧ 0xA1 ≤ c1 ∧ c1 ≤ 0xAF) ∨ (c = 0xC3 ∧ 0x80 ≤ c1 ∧ c1 ≤ 0xBF)
        then (1, rest2) else (2, rest2)
      | [] => (2, [])
    else if 0xE0 ≤ c ∧ c ≤ 0xEF then (1, rest.drop 2)
    else if 0xF0 ≤ c ∧ c ≤ 0xF7 then (2, rest.drop 3)
    else (1, rest)

/-- Fueled driver for the outer loop of `getDisplayWidth`.  `none`
means the fuel ran out before the loop finished. -/
def gdwAux : Nat → List Nat → Option Nat
  | _, [] => some 0
  | 0, _ :: _ => none
  | fuel + 1, s =>
    let (w, s2) := gdwStep s
    (gdwAux fuel s2).map (w + ·)

/-- `getDisplayWidth` from `machine_report.cpp` (lines 97-150) over a
byte string.  Every iteration of the source loop either consumes at
least one byte or repeats the very same state forever (the malformed
CSI case), so fuel `length + 1` returns `some` exactly when the C++
loop terminates, with the same width. -/
def getDisplayWidth (s : List Nat) : Option Nat := gdwAux (s.length + 1) s

/-- The accumulation loop of `maxLength` in `machine_report.cpp`
(lines 152-159): `max_len` starts at `MIN_DATA_LEN` and is raised to
each display width exceeding it.  Propagates `none` when
`getDisplayWidth` diverges on an input. -/
def maxLenAux : Nat → List (List Nat) → Option Nat
  | acc, [] => some acc
  | acc, s :: rest =>
    match getDisplayWidth s with
    | none => none
    | some len => maxLenAux (if acc < len then len else acc) rest

namespace Themed

/-- `maxLength` from `machine_report.cpp` (lines 152-167): max of
display widths starting from `MIN_DATA_LEN`, clamped above at
`MAX_DATA_LEN`, then below at `MIN_DATA_LEN`. -/
def maxLength (strs : List (List Nat)) : Option Nat :=
  (maxLenAux MIN_DATA_LEN strs).map fun m =>
    let m1 := if MAX_DATA_LEN < m then MAX_DATA_LEN else m
    if m1 < MIN_DATA_LEN then MIN_DATA_LEN else m1

end Themed

/-- The accumulation loop of the plain edition's `maxLength`
(`src/unnamed/part_000` lines 76-83): byte length (`str.length()`),
accumulator starting at 0. -/
def maxLenPlainAux : Nat → List (List Nat) → Nat
  | acc, [] => acc
  | acc, s :: rest => maxLenPlainAux (if acc < s.length then s.length else acc) rest

namespace Plain

/-- `maxLength` from `src/unnamed/part_000` (lines 76-85): maximum
byte length, returned as `(max_len < MAX_DATA_LEN) ? max_len :
MAX_DATA_LEN` - no lower clamp and no display-width measure. -/
def maxLength (strs : List (List Nat)) : Nat :=
  let m := maxLenPlainAux 0 strs
  if m < MAX_DATA_LEN then m else MAX_DATA_LEN

end Plain

/-- `std::getline` over a string: the list of `'\n'`-separated lines,
with no empty trailing line (as `std::getline` fails on a final EOF
with nothing read). -/
def cppGetlines : List Char → List (List Char)
  | [] => []
  | '\n' :: s => [] :: cppGetlines s
  | c :: s =>
    match cppGetlines s with
    | [] => [[c]]
    | l :: ls => (c :: l) :: ls

/-- Prefix test on char lists (`Bool`-valued). -/
def leadsWith : List Char → List Char → Bool
  | [], _ => true
  | _ :: _, [] => false
  | p :: ps, c :: cs => p == c && leadsWith ps cs

/-- `std::string::find(pat)`: index of the first occurrence of `pat`,
`none` for `npos`. -/
def findSub (pat : List Char) : List Char → Option Nat
  | [] => if leadsWith pat [] then some 0 else none
  | s@(_ :: t) => if leadsWith pat s then some 0 else (findSub pat t).map (· + 1)

/-- `std::string::find(c, start)`: index of the first occurrence of
the character `c` at or after `start`. -/
def findCharFrom (c : Char) (start : Nat) (s : List Char) : Option Nat :=
  (findSub [c] (s.drop start)).map (· + start)

/-- `std::string::find_first_not_of(c)`. -/
def cppFindFirstNotOf (c : Char) : List Char → Option Nat
  | [] => none
  | x :: t => if x = c then (cppFindFirstNotOf c t).map (· + 1) else some 0

/-- `s.erase(0, n)` where `n` came from a find that may be `npos`:
erasing `npos` characters from position 0 empties the string. -/
def cppEraseTo (s : List Char) : Option Nat → List Char
  | none => []
  | some i => s.drop i

/-- The body of the C++ loop
`while ((p = part1.find(pat)) != npos) part1.replace(p, pat.size, rep)`
with explicit fuel.  Each real iteration replaces a strictly longer
pattern by a shorter one, so `length + 1` fuel (see `cppReplaceAll`)
covers every terminating run of the source loop. -/
def replaceLoopFuel (pat rep : List Char) : Nat → List Char → List Char
  | 0, s => s
  | fuel + 1, s =>
    match findSub pat s with
    | none => s
    | some p => replaceLoopFuel pat rep fuel (s.take p ++ rep ++ s.drop (p + pat.length))

/-- The replace-all loop of the uptime parser (pattern strictly longer
than the replacement, as with `" days" -> "d"`). -/
def cppReplaceAll (pat rep s : List Char) : List Char :=
  replaceLoopFuel pat rep (s.length + 1) s

namespace Plain

/-- The uptime-parsing section of `getLastLogin` in
`src/unnamed/part_000` (lines 481-524), as a function of the raw
output of the `uptime` command.  `LoginInfo info{}` zero-initialises
`info.uptime` to the empty string, which is what the function returns
whenever it takes none of the assigning branches (no `"up "`, or no
comma after it). -/
def parseUptime (uptime_raw : List Char) : List Char :=
  match findSub ['u', 'p', ' '] uptime_raw with
  | none => []
  | some up_pos =>
    let sub := uptime_raw.drop (up_pos + 3)
    match findSub [','] sub with
    | none => []
    | some comma_pos =>
      let part1 := sub.take comma_pos
      if (findSub ['d', 'a', 'y'] part1).isSome then
        let time_part :=
          match findCharFrom ',' (comma_pos + 1) sub with
          | some comma2_pos => (sub.drop (comma_pos + 1)).take (comma2_pos - comma_pos - 1)
          | none => []
        let part1a := cppReplaceAll [' ', 'd', 'a', 'y', 's'] ['d'] part1
        let part1b := cppReplaceAll [' ', 'd', 'a', 'y'] ['d'] part1a
        let part1c := part1b.filter fun c => !(c == ' ')
        let time_part2 := cppEraseTo time_part (cppFindFirstNotOf ' ' time_part)
        match findSub [':'] time_part2 with
        | some colon =>
          part1c ++ [' '] ++ time_part2.take colon ++ ['h', ' '] ++
            time_part2.drop (colon + 1) ++ ['m']
        | none => part1c
      else
        let part1d := cppEraseTo part1 (cppFindFirstNotOf ' ' part1)
        match findSub [':'] part1d with
        | some colon =>
          part1d.take colon ++ ['h', ' '] ++ part1d.drop (colon + 1) ++ ['m']
        | none => part1d

/-- The command-string construction at the top of `getLastLogin` in
`src/unnamed/part_000` (lines 445-448).  The argument is the result of
`getenv("USER")`: `cmd += user` calls
`std::string::operator+=(const char*)`, which has undefined behaviour
on a null pointer, modelled as `none`. -/
def buildLastLoginCmd (user : Option (List Char)) : Option (List Char) :=
  match user with
  | none => none
  | some u =>
    some (('l' :: 'a' :: 's' :: 't' :: ' ' :: '-' :: '1' :: ' ' :: u) ++
      [' ', '2', '>', '/', 'd', 'e', 'v', '/', 'n', 'u', 'l', 'l', ' ', '|', ' ',
       'h', 'e', 'a', 'd', ' ', '-', '1'])

end Plain

namespace Themed

/-- The uptime handling of `getLastLogin` in `machine_report.cpp`
(lines 509-514): the output of
`uptime | sed 's/.*up \([^,]*\).*/\1/'` is passed through verbatim,
with `"N/A"` substituted for an empty result.  No reformatting into
`"Nd HHh MMm"` happens in this edition. -/
def getUptime (sedOut : List Char) : List Char :=
  if sedOut = [] then ['N', '/', 'A'] else sedOut

/-- One line of `getDNS` parsing in `machine_report.cpp` (lines
377-386): find `':'`, take the rest, strip leading spaces, keep the
result if nonempty. -/
def parseDNSLine (line : List Char) : Option (List Char) :=
  match findSub [':'] line with
  | none => none
  | some colon =>
    let ip := (line.drop (colon + 1)).dropWhile fun c => c == ' '
    if ip = [] then none else some ip

/-- The `while (std::getline(...))` accumulation loop of `getDNS`. -/
def getDNSLines : List (List Char) → List (List Char)
  | [] => []
  | l :: ls =>
    match parseDNSLine l with
    | some ip => ip :: getDNSLines ls
    | none => getDNSLines ls

/-- `getDNS` from `machine_report.cpp` (lines 371-392), as a function
of the captured output of
`scutil --dns | grep 'nameserver\[0\]' | head -3`.  An empty parse
result falls back to the single-entry `["N/A"]` list. -/
def getDNS (output : List Char) : List (List Char) :=
  let ds := if output = [] then [] else getDNSLines (cppGetlines output)
  if ds = [] then [['N', '/', 'A']] else ds

end Themed

namespace Plain

/-- The line-accumulation loop of the plain edition's `getDNS`
(`src/unnamed/part_000` lines 292-296): push every nonempty line. -/
def getDNSLines : List (List Char) → List (List Char)
  | [] => []
  | l :: ls => if l = [] then getDNSLines ls else l :: getDNSLines ls

/-- `getDNS` from `src/unnamed/part_000` (lines 284-299), as a
function of the captured output of the `scutil ... | sed ... | head -3`
pipeline.  Note: there is no `"N/A"` fallback - an empty parse yields
the empty list. -/
def getDNS (output : List Char) : List (List Char) :=
  getDNSLines (cppGetlines output)

end Plain

/-- One token of a string made of ANSI SGR escape sequences and plain
ASCII characters: either a single ASCII character, or a CSI sequence
`ESC [ params term`. -/
inductive AnsiTok where
  | ascii (c : Nat)
  | sgr (params : List Nat) (term : Nat)

/-- The byte rendering of one `AnsiTok`. -/
def renderTok : AnsiTok → List Nat
  | .ascii c => [c]
  | .sgr params term => 0x1B :: 0x5B :: (params ++ [term])

/-- The byte rendering of a token list. -/
def renderToks (ts : List AnsiTok) : List Nat := (ts.map renderTok).flatten

/-- Whether a token is a plain ASCII character. -/
def isAsciiTok : AnsiTok → Bool
  | .ascii _ => true
  | .sgr _ _ => false

/-- Well-formedness of a token: an ASCII character is a byte below
`0x80` other than ESC; an SGR sequence has parameter/intermediate
bytes in `0x20..0x3F` and a terminator in `0x40..0x7E`. -/
def wfTok : AnsiTok → Bool
  | .ascii c => decide (c < 0x80 ∧ c ≠ 0x1B)
  | .sgr params term =>
    params.all (fun p => decide (0x20 ≤ p ∧ p ≤ 0x3F)) &&
      decide (0x40 ≤ term ∧ term ≤ 0x7E)

/-! ## Helper lemmas -/

theorem drawBarGraph_count (p : ℚ) (w : ℤ) :
    (drawBarGraph p w).count true = barFilledCount p w ∧
    (drawBarGraph p w).count false = barEmptyCount p w ∧
    (drawBarGraph p w).length = barFilledCount p w + barEmptyCount p w := by
  simp [drawBarGraph, List.count_append, List.count_replicate]

theorem truncD_of_nonneg {q : ℚ} (h : 0 ≤ q) : truncD q = ⌊q⌋ := by
  simp [truncD, not_lt.mpr h]

/-! ## C1: disk used bytes -/

/-- C1 (counterexample).  The claim says every edition's disk
collector computes used bytes as total minus *available*.  On the
fixture `f_bsize=1, f_blocks=100, f_bfree=20, f_bavail=10`
(available < free), the plain edition (`src/unnamed/part_000`)
returns `used = 80 = total - free`, not `total - available = 90`. -/
theorem c1_disk_used_cex :
    (Plain.getDiskInfo (some ⟨1, 100, 20, 10⟩)).used = 80 ∧
    (Plain.getDiskInfo (some ⟨1, 100, 20, 10⟩)).used ≠ 100 * 1 - 10 * 1 := by
  constructor
  · norm_num [Plain.getDiskInfo, u64sub, U64]
  · norm_num [Plain.getDiskInfo, u64sub, U64]

/-- C1 (amended).  For every successful root-filesystem statistics
query (with the byte totals below 2^64 and the free/available block
counts at most the block count, as `statfs` guarantees), the themed
edition computes used bytes as total minus available
(`f_bavail`-based), while the plain edition computes total minus free
(`f_bfree`-based). -/
theorem c1_disk_used_amended (fs : StatFS)
    (hov : fs.f_blocks * fs.f_bsize < U64)
    (hav : fs.f_bavail ≤ fs.f_blocks)
    (hfr : fs.f_bfree ≤ fs.f_blocks) :
    (Themed.getDiskInfo (some fs)).used =
      fs.f_blocks * fs.f_bsize - fs.f_bavail * fs.f_bsize ∧
    (Plain.getDiskInfo (some fs)).used =
      fs.f_blocks * fs.f_bsize - fs.f_bfree * fs.f_bsize := by
  have h1 : fs.f_bavail * fs.f_bsize ≤ fs.f_blocks * fs.f_bsize :=
    Nat.mul_le_mul_right _ hav
  have h2 : fs.f_bfree * fs.f_bsize ≤ fs.f_blocks * fs.f_bsize :=
    Nat.mul_le_mul_right _ hfr
  constructor
  · simp only [Themed.getDiskInfo, u64sub, U64] at *
    omega
  · simp only [Plain.getDiskInfo, u64sub, U64] at *
    omega

/-- C1 (witness): the amended theorem applied to the concrete fixture
`f_bsize=1, f_blocks=100, f_bfree=20, f_bavail=10`. -/
theorem c1_disk_used_witness :
    (Themed.getDiskInfo (some ⟨1, 100, 20, 10⟩)).used = 100 * 1 - 10 * 1 ∧
    (Plain.getDiskInfo (some ⟨1, 100, 20, 10⟩)).used = 100 * 1 - 20 * 1 :=
  c1_disk_used_amended ⟨1, 100, 20, 10⟩ (by norm_num [U64]) (by norm_num) (by norm_num)

/-! ## C2: bar graph for percent > 100 -/

/-- C2 (code bug).  The claim (and spec sections 4.4 and 8) require
the filled-glyph count to be clamped to at most the width; the code
has no clamp: at `percent = 150`, `width = 10` (where the `double`
arithmetic `150/100.0*10 = 15.0` is exact, so the rational model is
faithful) `drawBarGraph` emits 15 filled glyphs into a 10-wide bar.
The empty-glyph count is 0, so the no-negative-remainder half of the
claim does hold at this input. -/
theorem c2_bar_overflow_bug :
    (drawBarGraph 150 10).count true = 15 ∧
    ¬((drawBarGraph 150 10).count true ≤ 10) ∧
    (drawBarGraph 150 10).count false = 0 := by
  have h := drawBarGraph_count 150 10
  have hf : barFilledCount 150 10 = 15 := by
    have : truncD ((150 : ℚ) / 100 * 10) = 15 := by norm_num [truncD]
    simp [barFilledCount, numBlocks, this]
  have he : barEmptyCount 150 10 = 0 := by
    have : truncD ((150 : ℚ) / 100 * 10) = 15 := by norm_num [truncD]
    simp [barEmptyCount, numBlocks, this]
  refine ⟨?_, ?_, ?_⟩
  · rw [h.1, hf]
  · rw [h.1, hf]; omega
  · rw [h.2.1, he]

/-! ## C3: memory percent -/

/-- C3 (counterexample).  The claim says the memory collector never
performs the division when `total = 0`.  In the themed edition
(`machine_report.cpp`), when `host_statistics64` succeeds the percent
is computed as `used/total*100` unconditionally; with `total = 0` the
division by zero is performed and the `double` result is non-finite
(modelled `none`), not the claimed `percent = 0`. -/
theorem c3_mem_percent_cex :
    (Themed.getMemInfo (some (0, 0)) 4096 0).percent = none ∧
    (Themed.getMemInfo (some (0, 0)) 4096 0).percent ≠ some 0 := by
  have hp : (Themed.getMemInfo (some (0, 0)) 4096 0).percent = none := by
    norm_num [Themed.getMemInfo, divD, U32, U64]
  exact ⟨hp, by rw [hp]; simp⟩

/-- C3 (amended).  The plain edition (`src/unnamed/part_000`)
satisfies the claim: its `getMemInfo` yields `percent = 0` when
`total = 0` without dividing, computes `used/total*100` when
`total > 0`, and its percent is always a finite nonnegative value.
The themed edition only guarantees this on its failure branch. -/
theorem c3_mem_percent_amended (vmStat : Option (Nat × Nat)) (page_size : Nat)
    (totalQ : Option Nat) :
    (∃ q, (Plain.getMemInfo vmStat page_size totalQ).percent = some q ∧ 0 ≤ q) ∧
    ((Plain.getMemInfo vmStat page_size totalQ).total = 0 →
      (Plain.getMemInfo vmStat page_size totalQ).percent = some 0) ∧
    (0 < (Plain.getMemInfo vmStat page_size totalQ).total →
      (Plain.getMemInfo vmStat page_size totalQ).percent =
        some (((Plain.getMemInfo vmStat page_size totalQ).used : ℚ) /
          ((Plain.getMemInfo vmStat page_size totalQ).total : ℚ) * 100)) ∧
    (Themed.getMemInfo none page_size 0).percent = some 0 := by
  refine ⟨?_, ?_, ?_, ?_⟩
  · by_cases h : 0 < totalQ.getD 0
    · refine ⟨((Plain.getMemInfo vmStat page_size totalQ).used : ℚ) /
        ((Plain.getMemInfo vmStat page_size totalQ).total : ℚ) * 100, ?_, ?_⟩
      · simp [Plain.getMemInfo, h]
      · positivity
    · exact ⟨0, by simp [Plain.getMemInfo, h], le_refl 0⟩
  · intro h
    simp only [Plain.getMemInfo] at h ⊢
    simp [h]
  · intro h
    simp only [Plain.getMemInfo] at h ⊢
    simp [h]
  · simp [Themed.getMemInfo]

/-- C3 (witness): the amended theorem applied at a successful
statistics query with `active = wire = 1`, page size 4096, total
8192. -/
theorem c3_mem_percent_witness :
    (∃ q, (Plain.getMemInfo (some (1, 1)) 4096 (some 8192)).percent = some q ∧ 0 ≤ q) ∧
    (0 < (Plain.getMemInfo (some (1, 1)) 4096 (some 8192)).total) ∧
    (Plain.getMemInfo (some (1, 1)) 4096 (some 8192)).percent =
      some (((Plain.getMemInfo (some (1, 1)) 4096 (some 8192)).used : ℚ) /
        ((Plain.getMemInfo (some (1, 1)) 4096 (some 8192)).total : ℚ) * 100) := by
  have h := c3_mem_percent_amended (some (1, 1)) 4096 (some 8192)
  have ht : 0 < (Plain.getMemInfo (some (1, 1)) 4096 (some 8192)).total := by
    norm_num [Plain.getMemInfo]
  exact ⟨h.1, ht, h.2.2.1 ht⟩

/-! ## C6: bar graph for percent in [0, 100] -/

/-- C6 (confirmed).  For percent in `[0, 100]` and positive width the
bar is exactly `floor(percent/100*width)` filled glyphs followed by
the remaining width of empty glyphs, total length the width.  The
`double` arithmetic of the source is modelled as exact rational
arithmetic with C truncation-toward-zero, which on nonnegative values
coincides with the floor the claim names. -/
theorem c6_bar_graph_exact (p : ℚ) (w : ℤ) (h0 : 0 ≤ p) (h1 : p ≤ 100) (hw : 0 < w) :
    drawBarGraph p w =
      List.replicate (⌊p / 100 * w⌋).toNat true ++
        List.replicate (w.toNat - (⌊p / 100 * w⌋).toNat) false ∧
    (drawBarGraph p w).length = w.toNat := by
  have hwq : (0 : ℚ) ≤ (w : ℚ) := by exact_mod_cast hw.le
  have hx0 : 0 ≤ p / 100 * w := by positivity
  have hxw : p / 100 * w ≤ (w : ℚ) := by
    have hp1 : p / 100 ≤ 1 := by
      rw [div_le_one (by norm_num : (0 : ℚ) < 100)]; exact h1
    calc p / 100 * w ≤ 1 * w := mul_le_mul_of_nonneg_right hp1 hwq
    _ = (w : ℚ) := one_mul _
  have hnb : numBlocks p w = ⌊p / 100 * w⌋ := by
    simp [numBlocks, truncD_of_nonneg hx0]
  have hge : 0 ≤ ⌊p / 100 * w⌋ := Int.floor_nonneg.mpr hx0
  have hle : ⌊p / 100 * w⌋ ≤ w := by
    calc ⌊p / 100 * w⌋ ≤ ⌊(w : ℚ)⌋ := Int.floor_le_floor hxw
    _ = w := Int.floor_intCast w
  constructor
  · have hf : barFilledCount p w = (⌊p / 100 * w⌋).toNat := by
      simp [barFilledCount, hnb]
    have he : barEmptyCount p w = w.toNat - (⌊p / 100 * w⌋).toNat := by
      simp only [barEmptyCount, hnb]
      omega
    rw [drawBarGraph, hf, he]
  · have h := (drawBarGraph_count p w).2.2
    rw [h]
    simp only [barFilledCount, barEmptyCount, hnb]
    omega

/-- C6 (witness): the theorem applied at `percent = 50`,
`width = 10`, where the bar is 5 filled and 5 empty glyphs. -/
theorem c6_bar_graph_exact_witness :
    drawBarGraph 50 10 = List.replicate 5 true ++ List.replicate 5 false ∧
    (drawBarGraph 50 10).length = 10 := by
  have h := c6_bar_graph_exact 50 10 (by norm_num) (by norm_num) (by norm_num)
  have hfl : (⌊(50 : ℚ) / 100 * ((10 : ℤ) : ℚ)⌋).toNat = 5 := by
    norm_num
    omega
  constructor
  · rw [h.1, hfl]
    norm_num
    omega
  · rw [h.2]
    omega

/-! ## C5: maxLength clamping -/

/-- The per-string width results of `getDisplayWidth`, collected;
`none` as soon as one input makes the source loop diverge. -/
def gdwAll : List (List Nat) → Option (List Nat)
  | [] => some []
  | s :: t =>
    match getDisplayWidth s, gdwAll t with
    | some w, some ws => some (w :: ws)
    | _, _ => none

theorem ite_lt_eq_max (a b : Nat) : (if a < b then b else a) = max a b := by
  split <;> omega

theorem foldr_max_comm (l : List Nat) (a b : Nat) :
    l.foldr max (max a b) = max a (l.foldr max b) := by
  induction l with
  | nil => rfl
  | cons x t ih => simp only [List.foldr_cons, ih, Nat.max_left_comm]

theorem maxLenAux_eq (strs : List (List Nat)) (ws : List Nat) (acc : Nat)
    (h : gdwAll strs = some ws) : maxLenAux acc strs = some (ws.foldr max acc) := by
  induction strs generalizing ws acc with
  | nil =>
    simp only [gdwAll, Option.some.injEq] at h
    subst h
    rfl
  | cons s t ih =>
    simp only [gdwAll] at h
    cases hg : getDisplayWidth s with
    | none => rw [hg] at h; exact absurd h (by simp)
    | some w =>
      rw [hg] at h
      cases ht : gdwAll t with
      | none => rw [ht] at h; exact absurd h (by simp)
      | some wt =>
        rw [ht] at h
        simp only [Option.some.injEq] at h
        subst h
        simp only [maxLenAux, hg, ih wt _ ht, ite_lt_eq_max, List.foldr_cons,
          Nat.max_comm acc w, foldr_max_comm wt w acc]

/-- C5 (counterexample).  The claim says `maxLength` never returns
below `MIN_DATA_LEN = 20`.  The plain edition's `maxLength` has no
lower clamp (and measures byte length, not display width): on the
single string `"ab"` it returns 2. -/
theorem c5_maxlength_cex :
    Plain.maxLength [[97, 98]] = 2 ∧ ¬(MIN_DATA_LEN ≤ Plain.maxLength [[97, 98]]) := by
  decide

/-- C5 (amended).  The themed edition's `maxLength` does satisfy the
claim: whenever `getDisplayWidth` terminates on every input string
(widths `ws`), it returns the maximum display width clamped into
`[MIN_DATA_LEN, MAX_DATA_LEN] = [20, 32]`.  The plain edition instead
returns the maximum byte length capped above at 32 with no lower
clamp. -/
theorem c5_maxlength_amended (strs : List (List Nat)) (ws : List Nat)
    (h : gdwAll strs = some ws) :
    Themed.maxLength strs =
      some (min MAX_DATA_LEN (max MIN_DATA_LEN (ws.foldr max 0))) := by
  have hm : maxLenAux MIN_DATA_LEN strs = some (ws.foldr max MIN_DATA_LEN) :=
    maxLenAux_eq strs ws MIN_DATA_LEN h
  have hsplit : ws.foldr max MIN_DATA_LEN = max MIN_DATA_LEN (ws.foldr max 0) := by
    have h1 := foldr_max_comm ws MIN_DATA_LEN 0
    rwa [Nat.max_zero] at h1
  simp only [Themed.maxLength, hm, Option.map_some', hsplit, Option.some.injEq]
  simp only [MIN_DATA_LEN, MAX_DATA_LEN]
  split <;> split <;> omega

/-- C5 (witness): the amended theorem applied to the single ASCII
string `"Hi"` of display width 2, where the result clamps up to
`MIN_DATA_LEN = 20`. -/
theorem c5_maxlength_witness :
    gdwAll [[72, 105]] = some [2] ∧
    Themed.maxLength [[72, 105]] =
      some (min MAX_DATA_LEN (max MIN_DATA_LEN (([2] : List Nat).foldr max 0))) :=
  ⟨by decide, c5_maxlength_amended [[72, 105]] [2] (by decide)⟩

/-! ## C4: DNS resolver list -/

theorem getDNSLines_eq_filterMap (ls : List (List Char)) :
    Themed.getDNSLines ls = ls.filterMap Themed.parseDNSLine := by
  induction ls with
  | nil => rfl
  | cons l t ih =>
    simp only [Themed.getDNSLines, List.filterMap_cons]
    cases Themed.parseDNSLine l <;> simp [ih]

/-- C4 (counterexample).  The claim says the DNS collector always
returns at least one entry, with `["N/A"]` when nothing parses.  The
plain edition (`src/unnamed/part_000`) has no such fallback: on empty
command output it returns the empty list (and its caller then prints
no DNS row at all). -/
theorem c4_dns_cex :
    Plain.getDNS [] = [] ∧ ¬(1 ≤ (Plain.getDNS []).length) := by
  decide

/-- C4 (amended).  The themed edition's `getDNS` satisfies the claim:
its result always has at least one entry; it is exactly `["N/A"]`
when no line parses to a resolver IP, and otherwise exactly the
parsed IPs in line (discovery) order; and under the `head -3` command
contract (at most 3 output lines) it has at most 3 entries.  The
plain edition returns the possibly-empty parsed list with no
fallback. -/
theorem c4_dns_amended (out : List Char) :
    1 ≤ (Themed.getDNS out).length ∧
    ((cppGetlines out).filterMap Themed.parseDNSLine = [] →
      Themed.getDNS out = [['N', '/', 'A']]) ∧
    ((cppGetlines out).filterMap Themed.parseDNSLine ≠ [] →
      Themed.getDNS out = (cppGetlines out).filterMap Themed.parseDNSLine) ∧
    ((cppGetlines out).length ≤ 3 → (Themed.getDNS out).length ≤ 3) := by
  by_cases hout : out = []
  · subst hout
    refine ⟨by decide, fun _ => by decide, fun hne => absurd rfl hne, fun _ => by decide⟩
  · have hds : (if out = [] then [] else Themed.getDNSLines (cppGetlines out)) =
        (cppGetlines out).filterMap Themed.parseDNSLine := by
      rw [if_neg hout, getDNSLines_eq_filterMap]
    by_cases hfm : (cppGetlines out).filterMap Themed.parseDNSLine = []
    · have hg : Themed.getDNS out = [['N', '/', 'A']] := by
        simp [Themed.getDNS, hds, hfm]
      refine ⟨by rw [hg]; decide, fun _ => hg, fun hne => absurd hfm hne,
        fun _ => by rw [hg]; decide⟩
    · have hg : Themed.getDNS out = (cppGetlines out).filterMap Themed.parseDNSLine := by
        simp only [Themed.getDNS, hds, if_neg hfm]
      refine ⟨?_, fun he => absurd he hfm, fun _ => hg, ?_⟩
      · rw [hg]
        rcases hn : (cppGetlines out).filterMap Themed.parseDNSLine with _ | ⟨a, t⟩
        · exact absurd hn hfm
        · simp
      · intro h3
        rw [hg]
        exact le_trans (List.length_filterMap_le _ _) h3

/-- C4 (witness): the amended theorem applied to the single-line
output `"x: 8"`, which parses to the one resolver entry `"8"`. -/
theorem c4_dns_witness :
    1 ≤ (Themed.getDNS ['x', ':', ' ', '8']).length ∧
    (cppGetlines ['x', ':', ' ', '8']).length ≤ 3 ∧
    (Themed.getDNS ['x', ':', ' ', '8']).length ≤ 3 :=
  ⟨(c4_dns_amended ['x', ':', ' ', '8']).1, by decide,
    (c4_dns_amended ['x', ':', ' ', '8']).2.2.2 (by decide)⟩

/-! ## C8 and C9: getDisplayWidth -/

theorem gdwAux_cons (fuel : Nat) (a : Nat) (l : List Nat) :
    gdwAux (fuel + 1) (a :: l) =
      (gdwAux fuel (gdwStep (a :: l)).2).map ((gdwStep (a :: l)).1 + ·) := rfl

theorem scanCSI_params (ps : List Nat) (t : Nat) (rest : List Nat)
    (hps : ∀ p ∈ ps, 0x20 ≤ p ∧ p ≤ 0x3F) (ht1 : 0x40 ≤ t) (ht2 : t ≤ 0x7E) :
    scanCSI (ps ++ t :: rest) = .term rest := by
  induction ps with
  | nil => simp only [List.nil_append, scanCSI, if_pos (And.intro ht1 ht2)]
  | cons p pt ih =>
    have hp := hps p (List.mem_cons_self p pt)
    have ih2 := ih fun q hq => hps q (List.mem_cons_of_mem p hq)
    simp only [List.cons_append, scanCSI, if_neg (by omega : ¬(0x40 ≤ p ∧ p ≤ 0x7E)),
      if_neg (by omega : ¬(p < 0x20 ∨ 0x3F < p))]
    exact ih2

theorem gdwStep_tok (t : AnsiTok) (rest : List Nat) (hwf : wfTok t = true) :
    gdwStep (renderTok t ++ rest) = (if isAsciiTok t then 1 else 0, rest) := by
  cases t with
  | ascii c =>
    simp only [wfTok, decide_eq_true_eq] at hwf
    simp [renderTok, gdwStep, isAsciiTok, hwf.1, hwf.2]
  | sgr ps tm =>
    simp only [wfTok, Bool.and_eq_true, List.all_eq_true, decide_eq_true_eq] at hwf
    have hscan : scanCSI (ps ++ tm :: rest) = .term rest :=
      scanCSI_params ps tm rest (fun p hp => hwf.1 p hp) hwf.2.1 hwf.2.2
    simp [renderTok, gdwStep, isAsciiTok, hscan]

theorem length_renderToks_ge (ts : List AnsiTok) : ts.length ≤ (renderToks ts).length := by
  induction ts with
  | nil => simp [renderToks]
  | cons t rest ih =>
    have htok : 1 ≤ (renderTok t).length := by
      cases t <;> simp [renderTok]
    simp only [renderToks, List.map_cons, List.flatten_cons, List.length_append,
      List.length_cons]
    have : rest.length ≤ (renderToks rest).length := ih
    simp only [renderToks] at this
    omega

theorem gdwAux_toks (ts : List AnsiTok) (fuel : Nat) (hfuel : ts.length ≤ fuel)
    (hwf : ∀ t ∈ ts, wfTok t = true) :
    gdwAux fuel (renderToks ts) = some (ts.countP isAsciiTok) := by
  induction ts generalizing fuel with
  | nil => cases fuel <;> rfl
  | cons t rest ih =>
    cases fuel with
    | zero => exact absurd hfuel (by simp)
    | succ f =>
      have hwt := hwf t (List.mem_cons_self t rest)
      have hstep := gdwStep_tok t (renderToks rest) hwt
      have hrend : renderToks (t :: rest) = renderTok t ++ renderToks rest := by
        simp [renderToks]
      have hcons : ∃ a l, renderTok t ++ renderToks rest = a :: l := by
        cases t <;> exact ⟨_, _, rfl⟩
      obtain ⟨a, l, hal⟩ := hcons
      rw [hrend, hal, gdwAux_cons, ← hal, hstep]
      have ihr := ih f (by simp at hfuel; omega)
        (fun u hu => hwf u (List.mem_cons_of_mem t hu))
      rw [ihr]
      simp only [Option.map_some', Option.some.injEq, List.countP_cons]
      exact Nat.add_comm _ _

/-- C8 (confirmed).  For every well-formed token string consisting
only of ANSI SGR escape sequences (`ESC [` followed by bytes in
`0x20..0x3F` and a terminator in `0x40..0x7E`) and ASCII characters,
`getDisplayWidth` terminates and returns exactly the number of ASCII
characters outside the escape sequences. -/
theorem c8_display_width_sgr_ascii (ts : List AnsiTok)
    (hwf : ∀ t ∈ ts, wfTok t = true) :
    getDisplayWidth (renderToks ts) = some (ts.countP isAsciiTok) :=
  gdwAux_toks ts ((renderToks ts).length + 1)
    (le_trans (length_renderToks_ge ts) (Nat.le_succ _)) hwf

/-- C8 (witness): the theorem applied to the byte string
`ESC [ 3 8 m H i` (one SGR colour sequence followed by the two ASCII
characters `"Hi"`), whose display width is 2. -/
theorem c8_display_width_witness :
    getDisplayWidth
      (renderToks [.sgr [0x33, 0x38] 0x6D, .ascii 0x48, .ascii 0x69]) = some 2 := by
  rw [c8_display_width_sgr_ascii [.sgr [0x33, 0x38] 0x6D, .ascii 0x48, .ascii 0x69]
    (by decide)]
  decide

/-- C9 (code bug).  The claim says `getDisplayWidth` terminates on
every byte string.  On the malformed sequence `ESC [ 0x01` (a byte
outside both `0x20..0x3F` and `0x40..0x7E` after `ESC [`), the inner
scan `break`s with the position `i` untouched and the outer loop
re-enters the very same state, so the source loop never terminates:
the fueled embedding returns `none` for every fuel. -/
theorem c9_display_width_divergence :
    (∀ fuel, gdwAux fuel [0x1B, 0x5B, 0x01] = none) ∧
    getDisplayWidth [0x1B, 0x5B, 0x01] = none := by
  have hstep : gdwStep [0x1B, 0x5B, 0x01] = (0, [0x1B, 0x5B, 0x01]) := rfl
  have hall : ∀ fuel, gdwAux fuel [0x1B, 0x5B, 0x01] = none := by
    intro fuel
    induction fuel with
    | zero => rfl
    | succ f ih => rw [gdwAux_cons, hstep, ih]; rfl
  exact ⟨hall, hall _⟩

/-- C9 (witness): the divergence theorem applied at the concrete fuel
1000 - even a thousand loop iterations do not finish the scan of the
three-byte input. -/
theorem c9_display_width_witness : gdwAux 1000 [0x1B, 0x5B, 0x01] = none :=
  c9_display_width_divergence.1 1000

/-! ## C10: getLastLogin with USER unset -/

/-- C10 (code bug).  The claim says the `last` command string is
constructed without reaching an undefined null-pointer append.  In
`src/unnamed/part_000` lines 445-448, `cmd += user` passes the raw
`getenv("USER")` result to `std::string::operator+=(const char*)`,
which is undefined behaviour when the variable is unset (null) - so
no well-defined `LoginInfo` results in that environment.  For any set
`USER` the command string is well defined.  (`getCurrentUser` in the
same file guards the same call with `user_env ? user_env : ""`.) -/
theorem c10_lastlogin_null_user :
    Plain.buildLastLoginCmd none = none ∧
    ∀ u, (Plain.buildLastLoginCmd (some u)).isSome = true :=
  ⟨rfl, fun _ => rfl⟩

/-! ## C7: uptime parsing -/

theorem leadsWith_self_append (p s : List Char) : leadsWith p (p ++ s) = true := by
  induction p with
  | nil => rfl
  | cons c t ih => simp [leadsWith, ih]

theorem findSub_of_leadsWith {pat s : List Char} (h : leadsWith pat s = true) :
    findSub pat s = some 0 := by
  cases s with
  | nil =>
    cases pat with
    | nil => rfl
    | cons p pt => exact absurd h (by simp [leadsWith])
  | cons c t => simp [findSub, h]

theorem findSub_append (p : Char) (pt a b : List Char) (hp : p ∉ a) :
    findSub (p :: pt) (a ++ b) = (findSub (p :: pt) b).map (· + a.length) := by
  induction a with
  | nil =>
    cases h : findSub (p :: pt) b <;> simp [h]
  | cons x t ih =>
    have hpx : p ≠ x := fun he => hp (he ▸ List.mem_cons_self x t)
    have hpt : p ∉ t := fun hm => hp (List.mem_cons_of_mem x hm)
    have hlw : leadsWith (p :: pt) (x :: (t ++ b)) = false := by
      simp [leadsWith, hpx]
    simp only [List.cons_append, findSub, List.append_eq, hlw, Bool.false_eq_true,
      if_false, ih hpt]
    cases findSub (p :: pt) b <;> simp
    omega

theorem findSub_none (p : Char) (pt s : List Char) (hp : p ∉ s) :
    findSub (p :: pt) s = none := by
  have h := findSub_append p pt s [] hp
  rw [List.append_nil] at h
  rw [h]
  rfl

theorem drop_append_len (a b : List Char) (n : Nat) :
    (a ++ b).drop (a.length + n) = b.drop n := by
  induction a with
  | nil => simp
  | cons x t ih => simpa [Nat.succ_add] using ih

theorem drop_len_add_len (a b : List Char) :
    (a ++ b).drop (a.length + b.length) = [] := by
  rw [drop_append_len, List.drop_length]

theorem replaceLoopFuel_none (pat rep : List Char) (fuel : Nat) (s : List Char)
    (h : findSub pat s = none) : replaceLoopFuel pat rep fuel s = s := by
  cases fuel <;> simp [replaceLoopFuel, h]

theorem replaceLoopFuel_step (pat rep : List Char) (fuel : Nat) (s : List Char) (p : Nat)
    (h : findSub pat s = some p) :
    replaceLoopFuel pat rep (fuel + 1) s =
      replaceLoopFuel pat rep fuel (s.take p ++ rep ++ s.drop (p + pat.length)) := by
  simp [replaceLoopFuel, h]

theorem not_mem_of_digits {l : List Char} (hl : ∀ c ∈ l, c.isDigit = true)
    {d : Char} (hd : d.isDigit = false) : d ∉ l := by
  intro hm
  have := hl d hm
  rw [hd] at this
  exact Bool.noConfusion this

/-- The two `replace`-loops of the uptime parser turn `"N days"` or
`"N day"` into `"Nd"` when `N` contains no space. -/
theorem dayReplace (N : List Char) (hsp : ' ' ∉ N) (dw : List Char)
    (hdw : dw = [' ', 'd', 'a', 'y', 's'] ∨ dw = [' ', 'd', 'a', 'y']) :
    cppReplaceAll [' ', 'd', 'a', 'y'] ['d']
      (cppReplaceAll [' ', 'd', 'a', 'y', 's'] ['d'] (N ++ dw)) = N ++ ['d'] := by
  have hnone1 : findSub [' ', 'd', 'a', 'y', 's'] (N ++ ['d']) = none := by
    rw [findSub_append ' ' _ N _ hsp,
      show findSub [' ', 'd', 'a', 'y', 's'] ['d'] = none from rfl]
    rfl
  have hnone2 : findSub [' ', 'd', 'a', 'y'] (N ++ ['d']) = none := by
    rw [findSub_append ' ' _ N _ hsp,
      show findSub [' ', 'd', 'a', 'y'] ['d'] = none from rfl]
    rfl
  rcases hdw with h | h <;> subst h
  · have hfind : findSub [' ', 'd', 'a', 'y', 's'] (N ++ [' ', 'd', 'a', 'y', 's']) =
        some N.length := by
      rw [findSub_append ' ' _ N _ hsp,
        show findSub [' ', 'd', 'a', 'y', 's'] [' ', 'd', 'a', 'y', 's'] = some 0 from rfl,
        Option.map_some', Nat.zero_add]
    have hinner : cppReplaceAll [' ', 'd', 'a', 'y', 's'] ['d']
        (N ++ [' ', 'd', 'a', 'y', 's']) = N ++ ['d'] := by
      rw [cppReplaceAll, replaceLoopFuel_step _ _ _ _ _ hfind, List.take_left,
        drop_len_add_len, List.append_nil]
      exact replaceLoopFuel_none _ _ _ _ hnone1
    rw [hinner, cppReplaceAll, replaceLoopFuel_none _ _ _ _ hnone2]
  · have hfind : findSub [' ', 'd', 'a', 'y'] (N ++ [' ', 'd', 'a', 'y']) =
        some N.length := by
      rw [findSub_append ' ' _ N _ hsp,
        show findSub [' ', 'd', 'a', 'y'] [' ', 'd', 'a', 'y'] = some 0 from rfl,
        Option.map_some', Nat.zero_add]
    have hnone0 : findSub [' ', 'd', 'a', 'y', 's'] (N ++ [' ', 'd', 'a', 'y']) = none := by
      rw [findSub_append ' ' _ N _ hsp,
        show findSub [' ', 'd', 'a', 'y', 's'] [' ', 'd', 'a', 'y'] = none from rfl]
      rfl
    have hinner0 : cppReplaceAll [' ', 'd', 'a', 'y', 's'] ['d'] (N ++ [' ', 'd', 'a', 'y']) =
        N ++ [' ', 'd', 'a', 'y'] := replaceLoopFuel_none _ _ _ _ hnone0
    rw [hinner0, cppReplaceAll, replaceLoopFuel_step _ _ _ _ _ hfind, List.take_left,
      drop_len_add_len, List.append_nil]
    exact replaceLoopFuel_none _ _ _ _ hnone2

/-! ## C7 continued: the amended uptime-parsing theorem -/

theorem digit_filter_ne_space {l : List Char} (hl : ∀ c ∈ l, c.isDigit = true) :
    ∀ c ∈ l, (!(c == ' ')) = true := by
  intro c hc
  have h := hl c hc
  have hne : c ≠ ' ' := fun he => by rw [he] at h; exact absurd h (by decide)
  simp [hne]

/-- C7 (amended).  The uptime parser of the plain edition
(`src/unnamed/part_000`) reformats only when the time field is
terminated by a comma, as real `uptime` output provides
(`"up N day(s), HH:MM, k users, ..."`).  Then `"up N day(s), HH:MM,
..."` maps to `"Nd HHh MMm"` and `"up HH:MM, ..."` maps to
`"HHh MMm"`.  An input without `"up "`, or without any comma after
it, yields the empty string (the zero-initialised struct field), not
the verbatim pass-through the claim states; and the claim's own
example `"up 3 days, 4:15"` (no second comma) yields just `"3d"`. -/
theorem c7_uptime_amended (N H M tail dw : List Char)
    (hdw : dw = [' ', 'd', 'a', 'y', 's'] ∨ dw = [' ', 'd', 'a', 'y'])
    (hN : N ≠ []) (hNd : ∀ c ∈ N, c.isDigit = true)
    (hH : H ≠ []) (hHd : ∀ c ∈ H, c.isDigit = true)
    (hM : M ≠ []) (hMd : ∀ c ∈ M, c.isDigit = true) :
    Plain.parseUptime (['u', 'p', ' '] ++ N ++ dw ++ [','] ++ [' '] ++ H ++ [':'] ++ M ++ [','] ++ tail)
      = N ++ ['d'] ++ [' '] ++ H ++ ['h', ' '] ++ M ++ ['m'] ∧
    Plain.parseUptime (['u', 'p', ' '] ++ H ++ [':'] ++ M ++ [','] ++ tail)
      = H ++ ['h', ' '] ++ M ++ ['m'] ∧
    (∀ s, findSub ['u', 'p', ' '] s = none → Plain.parseUptime s = []) ∧
    (∀ r, ',' ∉ r → Plain.parseUptime (['u', 'p', ' '] ++ r) = []) := by
  have hdN : 'd' ∉ N := not_mem_of_digits hNd (by decide)
  have hspN : ' ' ∉ N := not_mem_of_digits hNd (by decide)
  have hcN : ',' ∉ N := not_mem_of_digits hNd (by decide)
  have hcH : ',' ∉ H := not_mem_of_digits hHd (by decide)
  have hcM : ',' ∉ M := not_mem_of_digits hMd (by decide)
  have hclH : ':' ∉ H := not_mem_of_digits hHd (by decide)
  have hdH : 'd' ∉ H := not_mem_of_digits hHd (by decide)
  have hdM : 'd' ∉ M := not_mem_of_digits hMd (by decide)
  rcases H with _ | ⟨h0, H2⟩
  · exact absurd rfl hH
  have h0d : h0 ≠ ' ' := by
    have h := hHd h0 (List.mem_cons_self h0 H2)
    exact fun he => by rw [he] at h; exact absurd h (by decide)
  have hcolon : findSub [':'] ((h0 :: H2) ++ ([':'] ++ M)) = some (h0 :: H2).length := by
    rw [findSub_append ':' [] _ _ hclH,
      findSub_of_leadsWith (by simp [leadsWith] : leadsWith [':'] ([':'] ++ M) = true)]
    simp
  have hdropM : ((h0 :: H2) ++ ([':'] ++ M)).drop ((h0 :: H2).length + 1) = M := by
    rw [drop_append_len]
    simp
  refine ⟨?_, ?_, ?_, ?_⟩
  · -- form (a): "up N day(s), H:M, tail"
    have hcdw : ',' ∉ dw := by rcases hdw with rfl | rfl <;> decide
    have hfd : findSub ['d', 'a', 'y'] dw = some 1 := by rcases hdw with rfl | rfl <;> rfl
    have hin : (['u', 'p', ' '] ++ N ++ dw ++ [','] ++ [' '] ++ (h0 :: H2) ++ [':'] ++ M ++ [','] ++ tail)
        = ['u', 'p', ' '] ++ ((N ++ dw) ++ ([','] ++ ([' '] ++ ((h0 :: H2) ++ ([':'] ++ M)) ++ ([','] ++ tail)))) := by
      simp [List.append_assoc]
    rw [hin]
    have hup : findSub ['u', 'p', ' ']
        (['u', 'p', ' '] ++ ((N ++ dw) ++ ([','] ++ ([' '] ++ ((h0 :: H2) ++ ([':'] ++ M)) ++ ([','] ++ tail))))) = some 0 :=
      findSub_of_leadsWith (leadsWith_self_append _ _)
    have hdrop3 : (['u', 'p', ' '] ++ ((N ++ dw) ++ ([','] ++ ([' '] ++ ((h0 :: H2) ++ ([':'] ++ M)) ++ ([','] ++ tail))))).drop 3
        = (N ++ dw) ++ ([','] ++ ([' '] ++ ((h0 :: H2) ++ ([':'] ++ M)) ++ ([','] ++ tail))) := by
      have h := drop_append_len ['u', 'p', ' '] ((N ++ dw) ++ ([','] ++ ([' '] ++ ((h0 :: H2) ++ ([':'] ++ M)) ++ ([','] ++ tail)))) 0
      simpa using h
    have hcA : ',' ∉ N ++ dw := by
      intro hmem
      rcases List.mem_append.mp hmem with h | h
      · exact hcN h
      · exact hcdw h
    have hcomma : findSub [','] ((N ++ dw) ++ ([','] ++ ([' '] ++ ((h0 :: H2) ++ ([':'] ++ M)) ++ ([','] ++ tail))))
        = some (N ++ dw).length := by
      rw [findSub_append ',' [] _ _ hcA,
        findSub_of_leadsWith (by simp [leadsWith] :
          leadsWith [','] ([','] ++ ([' '] ++ ((h0 :: H2) ++ ([':'] ++ M)) ++ ([','] ++ tail))) = true)]
      simp
    have hday : (findSub ['d', 'a', 'y'] (N ++ dw)).isSome = true := by
      rw [findSub_append 'd' ['a', 'y'] N _ hdN, hfd]
      rfl
    have hcB : ',' ∉ [' '] ++ ((h0 :: H2) ++ ([':'] ++ M)) := by
      intro hmem
      rcases List.mem_append.mp hmem with h1 | h2
      · exact absurd h1 (by decide)
      · rcases List.mem_append.mp h2 with h3 | h4
        · exact hcH h3
        · rcases List.mem_append.mp h4 with h5 | h6
          · exact absurd h5 (by decide)
          · exact hcM h6
    have hdropA : List.drop ((N ++ dw).length + 1)
        ((N ++ dw) ++ ([','] ++ ([' '] ++ ((h0 :: H2) ++ ([':'] ++ M)) ++ ([','] ++ tail))))
        = [' '] ++ ((h0 :: H2) ++ ([':'] ++ M)) ++ ([','] ++ tail) := by
      rw [drop_append_len]
      simp
    have hcf : findCharFrom ',' ((N ++ dw).length + 1)
        ((N ++ dw) ++ ([','] ++ ([' '] ++ ((h0 :: H2) ++ ([':'] ++ M)) ++ ([','] ++ tail))))
        = some (([' '] ++ ((h0 :: H2) ++ ([':'] ++ M))).length + ((N ++ dw).length + 1)) := by
      rw [findCharFrom, hdropA, findSub_append ',' [] _ _ hcB,
        findSub_of_leadsWith (by simp [leadsWith] :
          leadsWith [','] ([','] ++ tail) = true)]
      simp
    have harith : ([' '] ++ ((h0 :: H2) ++ ([':'] ++ M))).length + ((N ++ dw).length + 1)
        - (N ++ dw).length - 1 = ([' '] ++ ((h0 :: H2) ++ ([':'] ++ M))).length := by
      omega
    have hff : cppFindFirstNotOf ' ' ([' '] ++ ((h0 :: H2) ++ ([':'] ++ M))) = some 1 := by
      simp [cppFindFirstNotOf, h0d]
    have hdayrep := dayReplace N hspN dw hdw
    have hfilter : List.filter (fun c => !(c == ' ')) (N ++ ['d']) = N ++ ['d'] := by
      rw [List.filter_eq_self]
      intro c hc
      rcases List.mem_append.mp hc with h | h
      · exact digit_filter_ne_space hNd c h
      · rcases List.mem_singleton.mp h with rfl
        decide
    have hdrop1 : List.drop 1 ([' '] ++ ((h0 :: H2) ++ ([':'] ++ M))) = (h0 :: H2) ++ ([':'] ++ M) := by
      simp
    simp only [Plain.parseUptime, hup, Nat.zero_add, hdrop3, hcomma, List.take_left, hday, if_true,
      hcf, harith, hdropA, hdayrep, hfilter, cppEraseTo, hff, hdrop1, hcolon, List.take_left,
      hdropM]
  · -- form (b): "up H:M, tail"
    have hin : (['u', 'p', ' '] ++ (h0 :: H2) ++ [':'] ++ M ++ [','] ++ tail)
        = ['u', 'p', ' '] ++ (((h0 :: H2) ++ ([':'] ++ M)) ++ ([','] ++ tail)) := by
      simp [List.append_assoc]
    rw [hin]
    have hup : findSub ['u', 'p', ' ']
        (['u', 'p', ' '] ++ (((h0 :: H2) ++ ([':'] ++ M)) ++ ([','] ++ tail))) = some 0 :=
      findSub_of_leadsWith (leadsWith_self_append _ _)
    have hdrop3 : (['u', 'p', ' '] ++ (((h0 :: H2) ++ ([':'] ++ M)) ++ ([','] ++ tail))).drop 3
        = ((h0 :: H2) ++ ([':'] ++ M)) ++ ([','] ++ tail) := by
      have h := drop_append_len ['u', 'p', ' '] (((h0 :: H2) ++ ([':'] ++ M)) ++ ([','] ++ tail)) 0
      simpa using h
    have hcHM : ',' ∉ (h0 :: H2) ++ ([':'] ++ M) := by
      intro hmem
      rcases List.mem_append.mp hmem with h1 | h2
      · exact hcH h1
      · rcases List.mem_append.mp h2 with h3 | h4
        · exact absurd h3 (by decide)
        · exact hcM h4
    have hcomma : findSub [','] (((h0 :: H2) ++ ([':'] ++ M)) ++ ([','] ++ tail))
        = some ((h0 :: H2) ++ ([':'] ++ M)).length := by
      rw [findSub_append ',' [] _ _ hcHM,
        findSub_of_leadsWith (by simp [leadsWith] : leadsWith [','] ([','] ++ tail) = true)]
      simp
    have hdHM : 'd' ∉ (h0 :: H2) ++ ([':'] ++ M) := by
      intro hmem
      rcases List.mem_append.mp hmem with h1 | h2
      · exact hdH h1
      · rcases List.mem_append.mp h2 with h3 | h4
        · exact absurd h3 (by decide)
        · exact hdM h4
    have hnday : findSub ['d', 'a', 'y'] ((h0 :: H2) ++ ([':'] ++ M)) = none :=
      findSub_none 'd' ['a', 'y'] _ hdHM
    have hff0 : cppFindFirstNotOf ' ' ((h0 :: H2) ++ ([':'] ++ M)) = some 0 := by
      simp [cppFindFirstNotOf, h0d]
    simp only [Plain.parseUptime, hup, Nat.zero_add, hdrop3, hcomma, List.take_left, hnday,
      Option.isSome_none, Bool.false_eq_true, if_false, hff0, cppEraseTo, List.drop_zero,
      hcolon, hdropM]
  · -- unparseable: no "up " anywhere
    intro s h
    simp [Plain.parseUptime, h]
  · -- "up " present but no comma after it
    intro r hr
    have hup : findSub ['u', 'p', ' '] (['u', 'p', ' '] ++ r) = some 0 :=
      findSub_of_leadsWith (leadsWith_self_append _ _)
    have hdrop3 : (['u', 'p', ' '] ++ r).drop 3 = r := by
      have h := drop_append_len ['u', 'p', ' '] r 0
      simpa using h
    have hnc : findSub [','] r = none := findSub_none ',' [] r hr
    simp only [Plain.parseUptime, hup, Nat.zero_add, hdrop3, hnc]


/-- C7 (witness): the amended theorem applied at
`"up 3 days, 4:15,x"`, which maps to `"3d 4h 15m"`. -/
theorem c7_uptime_witness :
    Plain.parseUptime (['u', 'p', ' '] ++ ['3'] ++ [' ', 'd', 'a', 'y', 's'] ++ [','] ++ [' '] ++
        ['4'] ++ [':'] ++ ['1', '5'] ++ [','] ++ ['x'])
      = ['3'] ++ ['d'] ++ [' '] ++ ['4'] ++ ['h', ' '] ++ ['1', '5'] ++ ['m'] :=
  (c7_uptime_amended ['3'] ['4'] ['1', '5'] ['x'] [' ', 'd', 'a', 'y', 's'] (Or.inl rfl)
    (by decide) (by decide) (by decide) (by decide) (by decide) (by decide)).1

/-- C7 (counterexample).  On the claim's own example inputs the
parser does not produce the claimed outputs: `"up 3 days, 4:15"`
(no comma after the time field) yields `"3d"`, not `"3d 4h 15m"`;
`"up 4:15"` yields the empty string, not `"4h 15m"`; and the
unparseable `"hello"` yields the empty string, not the verbatim
input. -/
theorem c7_uptime_cex :
    Plain.parseUptime ("up 3 days, 4:15".toList) = ['3', 'd'] ∧
    Plain.parseUptime ("up 3 days, 4:15".toList) ≠ ("3d 4h 15m".toList) ∧
    Plain.parseUptime ("up 4:15".toList) = [] ∧
    Plain.parseUptime ("up 4:15".toList) ≠ ("4h 15m".toList) ∧
    Plain.parseUptime ("hello".toList) = [] ∧
    Plain.parseUptime ("hello".toList) ≠ ("hello".toList) := by
  decide

end MachineReport

